import Mathlib

/-!
Verification of the directory-tree scanner `tree.py`.

The development shallowly embeds the program's pattern matcher
(`is_ignored`, backed by Python's `fnmatch`), its recursive tree walker
(`build_tree`) with the three global counters, and the report assembly of
`main`.  Strings are modelled as `List Char` (Python strings are sequences
of code points), file contents as `List Nat` (bytes), and the filesystem
as an inductive tree whose directory nodes carry the outcome of listing
them (`iterdir` succeeding, raising `PermissionError`, or raising any
other exception).
-/

namespace TreeScan

/-! ## Python primitives on strings -/

/-- Python string comparison `s1 < s2`: lexicographic on code points. -/
def pyStrLt : List Char → List Char → Bool
  | _, [] => false
  | [], _ :: _ => true
  | a :: s1, b :: s2 => a.toNat < b.toNat || (a == b && pyStrLt s1 s2)

/-- ASCII lowercasing of one character; models `str.lower` on the ASCII
range (the program's sort key `p.name.lower()`). -/
def lowerChar (c : Char) : Char :=
  if 65 ≤ c.toNat && c.toNat ≤ 90 then Char.ofNat (c.toNat + 32) else c

/-- Python `s.lower()` (modelled character-wise, ASCII case map). -/
def pyLower (s : List Char) : List Char := s.map lowerChar

/-! ## The glob matcher: Python's `fnmatch.fnmatch`

`fnmatch.fnmatch(name, pat)` (with POSIX `normcase`, the identity)
translates `pat` into a regex with `(?s:...)\Z` semantics: `*` becomes
`.*` (crossing every character, slashes included), `?` becomes `.`,
`[...]` becomes a character class, everything else is escaped literally.
A `[` with no closing `]` is a literal `[`.  We implement the same
semantics directly as a recursive matcher. -/

/-- Scan forward to the first `]`, returning the characters before it and
the remainder after it; `none` when there is no closing `]`.  This mirrors
the `while j < n and pat[j] != ']'` scan of `fnmatch.translate`. -/
def scanClose : List Char → Option (List Char × List Char)
  | [] => none
  | c :: rest =>
    if c = ']' then some ([], rest)
    else (scanClose rest).map (fun q => (c :: q.1, q.2))

/-- Split a bracket expression (the pattern text after a `[`) into the
class body (including a leading `!` and a leading literal `]`, exactly as
`fnmatch.translate` includes them in `stuff`) and the pattern remainder
after the closing `]`. -/
def splitBracket (p : List Char) : Option (List Char × List Char) :=
  match p with
  | '!' :: ']' :: rest => (scanClose rest).map (fun q => ('!' :: ']' :: q.1, q.2))
  | '!' :: rest => (scanClose rest).map (fun q => ('!' :: q.1, q.2))
  | ']' :: rest => (scanClose rest).map (fun q => (']' :: q.1, q.2))
  | _ => scanClose p

/-- Membership of a character in a (non-negated) class body: literal
characters and `a-b` ranges, compared by code point as in the translated
regex. -/
def matchSet : List Char → Char → Bool
  | [], _ => false
  | a :: '-' :: b :: rest2, c =>
    (a.toNat ≤ c.toNat && c.toNat ≤ b.toNat) || matchSet rest2 c
  | a :: rest, c => a == c || matchSet rest c

/-- Full class match: a leading `!` negates the set (regex `[^...]`). -/
def classMatch (stuff : List Char) (c : Char) : Bool :=
  match stuff with
  | '!' :: body => !(matchSet body c)
  | _ => matchSet stuff c

/-- Core of `fnmatch.fnmatch pat text`: full match of `text` against the
translated pattern, with `*` and `?` crossing every character (the regex
carries the DOTALL flag `(?s:...)`). -/
def fnmatchCore : List Char → List Char → Bool
  | [], t => t.isEmpty
  | a :: p, t =>
    if a = '*' then
      fnmatchCore p t ||
        (match t with
         | [] => false
         | _ :: t2 => fnmatchCore (a :: p) t2)
    else if a = '?' then
      match t with
      | [] => false
      | _ :: t2 => fnmatchCore p t2
    else if a = '[' then
      match splitBracket p with
      | none =>
        match t with
        | c :: t2 => c == '[' && fnmatchCore p t2
        | [] => false
      | some (stuff, rest) =>
        match t with
        | c :: t2 => classMatch stuff c && fnmatchCore rest t2
        | [] => false
    else
      match t with
      | c :: t2 => a == c && fnmatchCore p t2
      | [] => false
termination_by p t => (t.length, p.length)

/-! ## The ignore test: `is_ignored` from `tree.py` -/

/-- Forward-slash joining of path components: `Path.as_posix` of the
path relative to the scan root, with the components listed from the root
downwards. -/
def relString : List (List Char) → List Char
  | [] => []
  | [comp] => comp
  | comp :: next :: rest => comp ++ '/' :: relString (next :: rest)

/-- Test of one pattern against a relative path, the loop body of
`is_ignored`: a pattern with a trailing `/` matches when `rel` starts with
the pattern minus that slash (`rel.startswith(pattern[:-1])`), and any
pattern also matches through `fnmatch.fnmatch(rel, pattern)`. -/
def matchesPattern (rel pattern : List Char) : Bool :=
  (pattern.getLast? == some '/' && pattern.dropLast.isPrefixOf rel) ||
    fnmatchCore pattern rel

/-- The program's `is_ignored(path, patterns, root)`, phrased on the
already-computed relative path string `rel`. -/
def is_ignored (rel : List Char) (patterns : List (List Char)) : Bool :=
  patterns.any (fun pattern => matchesPattern rel pattern)

/-! ## Reading a file: `open(..., encoding="utf-8", errors="ignore")`

The walker counts the lines of each file with
`sum(1 for _ in entry.open("r", encoding="utf-8", errors="ignore"))`.
With `errors="ignore"` a decode error never raises: invalid byte
sequences are dropped from the decoded text.  The stream is a text-mode
file, so universal-newline translation applies (`\r\n` and `\r` both
become `\n`) before lines are counted. -/

/-- UTF-8 decoding with `errors="ignore"`: a valid sequence yields its
scalar value, any byte that does not start a valid sequence is dropped
and decoding continues with the next byte (which produces the same text
as CPython's maximal-subpart skipping, since a continuation byte never
starts a valid sequence). -/
def utf8DecodeIgnore : List Nat → List Char
  | [] => []
  | b :: bs =>
    if b < 0x80 then Char.ofNat b :: utf8DecodeIgnore bs
    else if 0xC2 ≤ b && b ≤ 0xDF then
      match bs with
      | c1 :: bs1 =>
        if 0x80 ≤ c1 && c1 ≤ 0xBF then
          Char.ofNat ((b - 0xC0) * 64 + (c1 - 0x80)) :: utf8DecodeIgnore bs1
        else utf8DecodeIgnore (c1 :: bs1)
      | [] => []
    else if 0xE0 ≤ b && b ≤ 0xEF then
      match bs with
      | c1 :: c2 :: bs2 =>
        if (if b = 0xE0 then 0xA0 ≤ c1 && c1 ≤ 0xBF
            else if b = 0xED then 0x80 ≤ c1 && c1 ≤ 0x9F
            else 0x80 ≤ c1 && c1 ≤ 0xBF) && (0x80 ≤ c2 && c2 ≤ 0xBF) then
          Char.ofNat ((b - 0xE0) * 4096 + (c1 - 0x80) * 64 + (c2 - 0x80)) ::
            utf8DecodeIgnore bs2
        else utf8DecodeIgnore (c1 :: c2 :: bs2)
      | [c1] => utf8DecodeIgnore [c1]
      | [] => []
    else if 0xF0 ≤ b && b ≤ 0xF4 then
      match bs with
      | c1 :: c2 :: c3 :: bs3 =>
        if (if b = 0xF0 then 0x90 ≤ c1 && c1 ≤ 0xBF
            else if b = 0xF4 then 0x80 ≤ c1 && c1 ≤ 0x8F
            else 0x80 ≤ c1 && c1 ≤ 0xBF) &&
            (0x80 ≤ c2 && c2 ≤ 0xBF) && (0x80 ≤ c3 && c3 ≤ 0xBF) then
          Char.ofNat ((b - 0xF0) * 262144 + (c1 - 0x80) * 4096 +
              (c2 - 0x80) * 64 + (c3 - 0x80)) :: utf8DecodeIgnore bs3
        else utf8DecodeIgnore (c1 :: c2 :: c3 :: bs3)
      | [c1, c2] => utf8DecodeIgnore [c1, c2]
      | [c1] => utf8DecodeIgnore [c1]
      | [] => []
    else utf8DecodeIgnore bs

/-- Universal-newline translation of text-mode reading: `\r\n` and a lone
`\r` both become `\n`. -/
def translateNewlines : List Char → List Char
  | [] => []
  | '\r' :: '\n' :: rest => '\n' :: translateNewlines rest
  | '\r' :: rest => '\n' :: translateNewlines rest
  | c :: rest => c :: translateNewlines rest

/-- Number of lines yielded by iterating a text stream: one line per
newline, plus a final line when the text does not end in a newline. -/
def countLines (cs : List Char) : Nat :=
  if cs = [] then 0
  else cs.count '\n' + (if cs.getLast? = some '\n' then 0 else 1)

/-- Line count contributed by a file whose raw bytes are `content`, when
opened as in `build_tree`. -/
def pyLineCount (content : List Nat) : Nat :=
  countLines (translateNewlines (utf8DecodeIgnore content))

/-! ## The filesystem model -/

/-- Outcome of `path.iterdir()` on a directory: a successful listing,
a `PermissionError` (caught by `build_tree`), or any other exception
(uncaught, so it propagates). -/
inductive ListOutcome : Type where
  | ok : ListOutcome
  | permErr : ListOutcome
  | otherErr : ListOutcome
deriving DecidableEq

/-- A filesystem node as seen by the walker.  A file carries whether
opening/reading it raises (caught by the `except Exception` around the
line count) and its raw bytes; a directory carries its listing outcome
and children; a symlink carries its (never inspected) target. -/
inductive FSEntry : Type where
  | file (name : List Char) (readFails : Bool) (content : List Nat) : FSEntry
  | dir (name : List Char) (listing : ListOutcome) (children : List FSEntry) : FSEntry
  | symlink (name : List Char) (target : List Char) : FSEntry

/-- Entry name (`e.name`). -/
def FSEntry.name : FSEntry → List Char
  | .file n _ _ => n
  | .dir n _ _ => n
  | .symlink n _ => n

/-- The `e.is_symlink()` test used by the walker's filter. -/
def FSEntry.isSymlink : FSEntry → Bool
  | .symlink _ _ => true
  | _ => false

/-- The `p.is_file()` flag of the sort key.  Symlinks are filtered out
before sorting, so their value is never observed. -/
def FSEntry.isFileFlag : FSEntry → Bool
  | .file _ _ _ => true
  | _ => false

/-- The three module-level counters of `tree.py`. -/
structure ScanState : Type where
  file_count : Nat
  dir_count : Nat
  line_count : Nat
deriving DecidableEq

/-! ## Sorting: `sorted(..., key=lambda p: (p.is_file(), p.name.lower()))` -/

/-- Python tuple comparison of two sort keys: `False < True` on the
is-file flag, then code-point comparison of the lowercased names. -/
def keyLt : Bool × List Char → Bool × List Char → Bool
  | (f1, n1), (f2, n2) => (!f1 && f2) || (f1 == f2 && pyStrLt n1 n2)

/-- The sort key of an entry. -/
def entryKey (e : FSEntry) : Bool × List Char := (e.isFileFlag, pyLower e.name)

/-- Strict comparison of entries by their sort keys. -/
def entryLt (a b : FSEntry) : Bool := keyLt (entryKey a) (entryKey b)

/-- Stable insertion of `x` into `l`: `x` goes in front of the first
element not strictly below it, so elements with equal keys keep their
relative order (as Python's stable `sorted` does). -/
def insertLe (lt : α → α → Bool) (x : α) : List α → List α
  | [] => [x]
  | y :: ys => if lt y x then y :: insertLe lt x ys else x :: y :: ys

/-- Stable ascending sort, modelling Python's `sorted`. -/
def stableSort (lt : α → α → Bool) : List α → List α
  | [] => []
  | x :: xs => insertLe lt x (stableSort lt xs)

/-! ## The tree walker: `build_tree` -/

/-- Connector glyph in front of an entry name: `└── ` for the last
sibling, `├── ` otherwise. -/
def connector (last : Bool) : List Char :=
  if last then ['└', '─', '─', ' '] else ['├', '─', '─', ' ']

/-- Prefix extension for a directory's children: four spaces after a last
sibling, `│   ` otherwise. -/
def childPfx (last : Bool) : List Char :=
  if last then [' ', ' ', ' ', ' '] else ['│', ' ', ' ', ' ']

/-- The filter applied to a listed entry: drop symlinks, drop entries the
pattern matcher ignores (`not e.is_symlink() and not is_ignored(...)`).
`relComps` is the component path of the containing directory relative to
the scan root. -/
def keepEntry (relComps : List (List Char)) (patterns : List (List Char))
    (e : FSEntry) : Bool :=
  !e.isSymlink && !is_ignored (relString (relComps ++ [e.name])) patterns

/-- The filtered, sorted sibling list `entries` of `build_tree`. -/
def sortEntries (children : List FSEntry) (relComps : List (List Char))
    (patterns : List (List Char)) : List FSEntry :=
  stableSort entryLt (children.filter (keepEntry relComps patterns))

/-- Stable insertion preserves the total size of a list. -/
theorem insertLe_sizeOf [SizeOf α] (lt : α → α → Bool) (x : α) (l : List α) :
    sizeOf (insertLe lt x l) = 1 + sizeOf x + sizeOf l := by
  induction l with
  | nil => simp [insertLe]
  | cons y ys ih => simp only [insertLe]; split <;> simp <;> omega

/-- Stable sorting preserves the total size of a list. -/
theorem stableSort_sizeOf [SizeOf α] (lt : α → α → Bool) (l : List α) :
    sizeOf (stableSort lt l) = sizeOf l := by
  induction l with
  | nil => rfl
  | cons x xs ih => simp [stableSort, insertLe_sizeOf, ih]

/-- Filtering does not increase the total size of a list. -/
theorem filter_sizeOf_le [SizeOf α] (p : α → Bool) (l : List α) :
    sizeOf (l.filter p) ≤ sizeOf l := by
  induction l with
  | nil => simp
  | cons x xs ih => simp only [List.filter]; split <;> simp <;> omega

/-- The filtered, sorted sibling list is no larger than the raw listing,
which bounds the walker's recursion. -/
theorem sortEntries_sizeOf_le (children : List FSEntry) (relComps : List (List Char))
    (patterns : List (List Char)) :
    sizeOf (sortEntries children relComps patterns) ≤ sizeOf children := by
  unfold sortEntries
  rw [stableSort_sizeOf]
  exact filter_sizeOf_le _ _

/-- The loop of `build_tree` over the filtered, sorted `entries`, together
with the recursion into subdirectories.  For each entry one line
`prefix + connector + name` is emitted; a directory bumps `dir_count` and
recurses (a `PermissionError` listing yields no lines, any other listing
exception propagates — modelled as `Except.error ()`); a file bumps
`file_count` and adds its line count, or nothing when reading raises. -/
def walkList : List FSEntry → List (List Char) → List (List Char) → List Char →
    ScanState → Except Unit (List (List Char) × ScanState)
  | [], _, _, _, st => Except.ok ([], st)
  | FSEntry.dir n listing children :: rest, relComps, patterns, pfx, st =>
    let st1 : ScanState := { st with dir_count := st.dir_count + 1 }
    let sub : Except Unit (List (List Char) × ScanState) :=
      match listing with
      | ListOutcome.permErr => Except.ok ([], st1)
      | ListOutcome.otherErr => Except.error ()
      | ListOutcome.ok =>
        walkList (sortEntries children (relComps ++ [n]) patterns)
          (relComps ++ [n]) patterns (pfx ++ childPfx rest.isEmpty) st1
    match sub with
    | Except.error u => Except.error u
    | Except.ok (subLines, st2) =>
      match walkList rest relComps patterns pfx st2 with
      | Except.error u => Except.error u
      | Except.ok (tailLines, st3) =>
        Except.ok ((pfx ++ connector rest.isEmpty ++ n) :: (subLines ++ tailLines), st3)
  | FSEntry.file n rFails content :: rest, relComps, patterns, pfx, st =>
    let st1 : ScanState :=
      { st with file_count := st.file_count + 1,
                line_count := st.line_count + (if rFails then 0 else pyLineCount content) }
    match walkList rest relComps patterns pfx st1 with
    | Except.error u => Except.error u
    | Except.ok (tailLines, st2) =>
      Except.ok ((pfx ++ connector rest.isEmpty ++ n) :: tailLines, st2)
  | FSEntry.symlink n _ :: rest, relComps, patterns, pfx, st =>
    -- Unreachable when called on `sortEntries` output: the filter drops
    -- every symlink before the loop runs.  Shaped like the file branch
    -- (the loop's `else`), with no line contribution.
    let st1 : ScanState := { st with file_count := st.file_count + 1 }
    match walkList rest relComps patterns pfx st1 with
    | Except.error u => Except.error u
    | Except.ok (tailLines, st2) =>
      Except.ok ((pfx ++ connector rest.isEmpty ++ n) :: tailLines, st2)
termination_by entries _ _ _ _ => sizeOf entries
decreasing_by
  all_goals simp
  all_goals (have h := sortEntries_sizeOf_le children (relComps ++ [n]) patterns; omega)

/-- The program's `build_tree(path, root, ignore, prefix)` on the directory
node `t`, with `relComps` the component path of `t` relative to the root.
On a non-directory the model reports an uncaught exception, as `iterdir`
would raise `NotADirectoryError` (only `PermissionError` is caught); the
walker only ever recurses into directories. -/
def build_tree (t : FSEntry) (relComps : List (List Char))
    (patterns : List (List Char)) (pfx : List Char) (st : ScanState) :
    Except Unit (List (List Char) × ScanState) :=
  match t with
  | FSEntry.dir _ ListOutcome.permErr _ => Except.ok ([], st)
  | FSEntry.dir _ ListOutcome.otherErr _ => Except.error ()
  | FSEntry.dir _ ListOutcome.ok children =>
    walkList (sortEntries children relComps patterns) relComps patterns pfx st
  | _ => Except.error ()

/-- One whole scan as `main` performs it: counters initialized to zero,
then `build_tree(root, root, ignore_patterns)`. -/
def runScan (root : FSEntry) (patterns : List (List Char)) :
    Except Unit (List (List Char) × ScanState) :=
  build_tree root [] patterns [] ⟨0, 0, 0⟩

/-- The tree-line section of the report `main` writes (`[root.name]`
followed by the walk's lines) together with the final counters; `none`
when the walk raises, since the exception propagates out of `main` before
`output_file.write_text` runs. -/
def mainReport (root : FSEntry) (patterns : List (List Char)) :
    Option (List (List Char) × ScanState) :=
  match runScan root patterns with
  | Except.error _ => none
  | Except.ok (lines, st) => some (root.name :: lines, st)

/-! ## Unfolding equations for the matcher

The matcher is defined by well-founded recursion, so we record its
one-step unfoldings as ordinary lemmas and reason with those. -/

theorem fnmatchCore_nil (t : List Char) : fnmatchCore [] t = t.isEmpty := by
  rw [fnmatchCore]

theorem fnmatchCore_star_nil (p : List Char) :
    fnmatchCore ('*' :: p) [] = fnmatchCore p [] := by
  rw [fnmatchCore]
  simp

theorem fnmatchCore_star_cons (p : List Char) (c : Char) (t2 : List Char) :
    fnmatchCore ('*' :: p) (c :: t2) =
      (fnmatchCore p (c :: t2) || fnmatchCore ('*' :: p) t2) := by
  rw [fnmatchCore]
  simp

theorem fnmatchCore_q_nil (p : List Char) : fnmatchCore ('?' :: p) [] = false := by
  rw [fnmatchCore]
  simp

theorem fnmatchCore_q_cons (p : List Char) (c : Char) (t2 : List Char) :
    fnmatchCore ('?' :: p) (c :: t2) = fnmatchCore p t2 := by
  rw [fnmatchCore]
  simp

theorem fnmatchCore_br_none (p : List Char) (h : splitBracket p = none) :
    ∀ t, fnmatchCore ('[' :: p) t =
      (match t with
       | c :: t2 => c == '[' && fnmatchCore p t2
       | [] => false) := by
  intro t
  rw [fnmatchCore.eq_def]
  simp [h]

theorem fnmatchCore_br_some (p stuff rest : List Char)
    (h : splitBracket p = some (stuff, rest)) :
    ∀ t, fnmatchCore ('[' :: p) t =
      (match t with
       | c :: t2 => classMatch stuff c && fnmatchCore rest t2
       | [] => false) := by
  intro t
  rw [fnmatchCore.eq_def]
  simp [h]

theorem fnmatchCore_lit_nil (a : Char) (p : List Char)
    (h1 : a ≠ '*') (h2 : a ≠ '?') (h3 : a ≠ '[') :
    fnmatchCore (a :: p) [] = false := by
  rw [fnmatchCore]
  simp [h1, h2, h3]

theorem fnmatchCore_lit_cons (a : Char) (p : List Char) (c : Char) (t2 : List Char)
    (h1 : a ≠ '*') (h2 : a ≠ '?') (h3 : a ≠ '[') :
    fnmatchCore (a :: p) (c :: t2) = (a == c && fnmatchCore p t2) := by
  rw [fnmatchCore]
  simp [h1, h2, h3]

/-- A `*` at the head of a pattern absorbs any prefix of the text: if the
rest of the pattern matches `t`, the starred pattern matches `pre ++ t`. -/
theorem fnmatchCore_star_absorb (p t : List Char) (h : fnmatchCore p t = true)
    (pre : List Char) : fnmatchCore ('*' :: p) (pre ++ t) = true := by
  induction pre with
  | nil =>
    cases t with
    | nil => simp [fnmatchCore_star_nil, h]
    | cons c t2 => simp [fnmatchCore_star_cons, h]
  | cons c cs ih => simp [fnmatchCore_star_cons, ih]

end TreeScan


namespace TreeScan

/-! ## Structure of bracket splitting -/

/-- Appending a nonempty list on the right determines the last element. -/
theorem getLast?_append_right {l r : List Char} (h : r ≠ []) :
    (l ++ r).getLast? = r.getLast? := by
  rw [List.getLast?_append]
  cases hr : r.getLast? with
  | none => exact absurd (List.getLast?_eq_none_iff.mp hr) h
  | some x => rfl

/-- Consing onto a nonempty list does not change the last element. -/
theorem getLast?_cons_ne {c : Char} {l : List Char} (h : l ≠ []) :
    (c :: l).getLast? = l.getLast? := by
  have hc : c :: l = [c] ++ l := rfl
  rw [hc, getLast?_append_right h]

/-- A successful `scanClose` decomposes its input around the first `]`. -/
theorem scanClose_eq : ∀ {l a b : List Char}, scanClose l = some (a, b) →
    l = a ++ ']' :: b := by
  intro l
  induction l with
  | nil => intro a b h; simp [scanClose] at h
  | cons c rest ih =>
    intro a b h
    rw [scanClose] at h
    by_cases hc : c = ']'
    · rw [if_pos hc] at h
      simp only [Option.some.injEq, Prod.mk.injEq] at h
      obtain ⟨h1, h2⟩ := h
      subst h1
      subst h2
      simp [hc]
    · rw [if_neg hc] at h
      cases hsc : scanClose rest with
      | none => rw [hsc] at h; simp at h
      | some q =>
        obtain ⟨q1, q2⟩ := q
        rw [hsc] at h
        simp only [Option.map_some', Option.some.injEq, Prod.mk.injEq] at h
        obtain ⟨h1, h2⟩ := h
        subst h1
        subst h2
        rw [ih hsc]
        simp

/-- A successful `splitBracket` decomposes the pattern tail around the
closing `]`. -/
theorem splitBracket_eq {p s r : List Char} (h : splitBracket p = some (s, r)) :
    p = s ++ ']' :: r := by
  unfold splitBracket at h
  split at h
  · rename_i rest
    cases hsc : scanClose rest with
    | none => rw [hsc] at h; simp at h
    | some q =>
      obtain ⟨q1, q2⟩ := q
      rw [hsc] at h
      simp only [Option.map_some', Option.some.injEq, Prod.mk.injEq] at h
      obtain ⟨h1, h2⟩ := h
      subst h1
      subst h2
      rw [scanClose_eq hsc]
      simp
  · rename_i rest _
    cases hsc : scanClose rest with
    | none => rw [hsc] at h; simp at h
    | some q =>
      obtain ⟨q1, q2⟩ := q
      rw [hsc] at h
      simp only [Option.map_some', Option.some.injEq, Prod.mk.injEq] at h
      obtain ⟨h1, h2⟩ := h
      subst h1
      subst h2
      rw [scanClose_eq hsc]
      simp
  · rename_i rest
    cases hsc : scanClose rest with
    | none => rw [hsc] at h; simp at h
    | some q =>
      obtain ⟨q1, q2⟩ := q
      rw [hsc] at h
      simp only [Option.map_some', Option.some.injEq, Prod.mk.injEq] at h
      obtain ⟨h1, h2⟩ := h
      subst h1
      subst h2
      rw [scanClose_eq hsc]
      simp
  · exact scanClose_eq h

/-! ## A pattern ending in a slash only matches text ending in a slash -/

/-- When a cons-cell pattern whose head is not `/` ends in `/`, its tail
is nonempty and also ends in `/`. -/
theorem tail_lastSlash {a : Char} {p2 : List Char} (hne : a ≠ '/')
    (hlast : (a :: p2).getLast? = some '/') :
    p2 ≠ [] ∧ p2.getLast? = some '/' := by
  cases p2 with
  | nil =>
    simp at hlast
    exact absurd hlast hne
  | cons x xs =>
    refine ⟨by simp, ?_⟩
    rw [← hlast]
    exact (getLast?_cons_ne (by simp)).symm

/-- Consing preserves a trailing slash. -/
theorem cons_lastSlash {c : Char} {t2 : List Char} (h : t2.getLast? = some '/') :
    (c :: t2).getLast? = some '/' := by
  have hne : t2 ≠ [] := by intro hnil; rw [hnil] at h; simp at h
  rw [getLast?_cons_ne hne]
  exact h

/-- When the last character of the pattern is a literal `/`, any text the
matcher accepts also ends in `/`.  The proof follows the matcher's
recursion; in the bracket case the class body ends at a `]`, so it cannot
contain the pattern's final `/`. -/
theorem fnmatchCore_lastSlash :
    ∀ N p t, p.length + t.length ≤ N → p.getLast? = some '/' →
      fnmatchCore p t = true → t.getLast? = some '/' := by
  intro N
  induction N with
  | zero =>
    intro p t hlen hlast _
    cases p with
    | nil => simp at hlast
    | cons a p2 => simp at hlen
  | succ N ih =>
    intro p t hlen hlast hmatch
    cases p with
    | nil => simp at hlast
    | cons a p2 =>
      by_cases ha : a = '*'
      · subst ha
        obtain ⟨hne2, hp2⟩ := tail_lastSlash (by decide) hlast
        cases t with
        | nil =>
          rw [fnmatchCore_star_nil] at hmatch
          exact ih p2 [] (by simp at hlen ⊢; omega) hp2 hmatch
        | cons c t2 =>
          rw [fnmatchCore_star_cons] at hmatch
          rcases Bool.or_eq_true_iff.mp hmatch with hl | hr
          · exact ih p2 (c :: t2) (by simp at hlen ⊢; omega) hp2 hl
          · exact cons_lastSlash (ih ('*' :: p2) t2 (by simp at hlen ⊢; omega) hlast hr)
      · by_cases hqm : a = '?'
        · subst hqm
          obtain ⟨hne2, hp2⟩ := tail_lastSlash (by decide) hlast
          cases t with
          | nil => rw [fnmatchCore_q_nil] at hmatch; exact absurd hmatch (by simp)
          | cons c t2 =>
            rw [fnmatchCore_q_cons] at hmatch
            exact cons_lastSlash (ih p2 t2 (by simp at hlen ⊢; omega) hp2 hmatch)
        · by_cases hbr : a = '['
          · subst hbr
            cases hsb : splitBracket p2 with
            | none =>
              rw [fnmatchCore_br_none p2 hsb] at hmatch
              obtain ⟨hne2, hp2⟩ := tail_lastSlash (by decide) hlast
              cases t with
              | nil => exact absurd hmatch (by simp)
              | cons c t2 =>
                simp only [Bool.and_eq_true] at hmatch
                exact cons_lastSlash (ih p2 t2 (by simp at hlen ⊢; omega) hp2 hmatch.2)
            | some q =>
              obtain ⟨stuff, rest⟩ := q
              rw [fnmatchCore_br_some p2 stuff rest hsb] at hmatch
              have hp2eq := splitBracket_eq hsb
              obtain ⟨hne2, hp2⟩ := tail_lastSlash (by decide) hlast
              have hrestne : rest ≠ [] := by
                intro hnil
                rw [hnil] at hp2eq
                rw [hp2eq, List.getLast?_concat] at hp2
                simp at hp2
              have hrest : rest.getLast? = some '/' := by
                rw [hp2eq, getLast?_append_right (by simp), getLast?_cons_ne hrestne] at hp2
                exact hp2
              cases t with
              | nil => exact absurd hmatch (by simp)
              | cons c t2 =>
                simp only [Bool.and_eq_true] at hmatch
                have hlenrest : rest.length + t2.length ≤ N := by
                  have hl2 : p2.length = stuff.length + 1 + rest.length := by
                    rw [hp2eq]; simp; omega
                  simp at hlen
                  omega
                exact cons_lastSlash (ih rest t2 hlenrest hrest hmatch.2)
          · cases t with
            | nil =>
              rw [fnmatchCore_lit_nil a p2 ha hqm hbr] at hmatch
              exact absurd hmatch (by simp)
            | cons c t2 =>
              rw [fnmatchCore_lit_cons a p2 c t2 ha hqm hbr] at hmatch
              simp only [Bool.and_eq_true, beq_iff_eq] at hmatch
              obtain ⟨hac, hm2⟩ := hmatch
              cases p2 with
              | nil =>
                rw [fnmatchCore_nil] at hm2
                have ht2 : t2 = [] := by simpa using hm2
                subst ht2
                simp only [List.getLast?_singleton] at hlast ⊢
                rw [← hac]
                exact hlast
              | cons x xs =>
                have hp2 : (x :: xs).getLast? = some '/' := by
                  rw [← hlast]
                  exact (getLast?_cons_ne (by simp)).symm
                exact cons_lastSlash (ih (x :: xs) t2 (by simp at hlen ⊢; omega) hp2 hm2)

/-! ## Relative paths of real filesystem entries never end in a slash -/

/-- A joined path of nonempty components is nonempty. -/
theorem relString_ne_nil : ∀ {comps : List (List Char)}, comps ≠ [] →
    (∀ comp ∈ comps, comp ≠ []) → relString comps ≠ [] := by
  intro comps hne hvalid
  match comps with
  | [c] => exact hvalid c (by simp)
  | c :: c2 :: rest =>
    rw [relString]
    simp

/-- A joined path of nonempty, slash-free components does not end in a
slash. -/
theorem relString_not_lastSlash : ∀ {comps : List (List Char)}, comps ≠ [] →
    (∀ comp ∈ comps, comp ≠ [] ∧ '/' ∉ comp) →
    (relString comps).getLast? ≠ some '/' := by
  intro comps
  induction comps with
  | nil => intro h; exact absurd rfl h
  | cons c rest ih =>
    intro _ hvalid hlast
    cases rest with
    | nil =>
      rw [relString] at hlast
      have hmem : '/' ∈ c := List.mem_of_mem_getLast? (by rw [hlast]; simp)
      exact (hvalid c (by simp)).2 hmem
    | cons c2 rest2 =>
      rw [relString] at hlast
      have hrne : relString (c2 :: rest2) ≠ [] := by
        apply relString_ne_nil (by simp)
        intro comp hcomp
        exact (hvalid comp (by simp [hcomp])).1
      rw [getLast?_append_right (by simp), getLast?_cons_ne hrne] at hlast
      exact ih (by simp) (fun comp hcomp => hvalid comp (by simp [hcomp])) hlast

/-- A pattern in the list that matches makes `is_ignored` true. -/
theorem is_ignored_of_mem {rel p : List Char} {patterns : List (List Char)}
    (hmem : p ∈ patterns) (hmatch : matchesPattern rel p = true) :
    is_ignored rel patterns = true :=
  List.any_eq_true.mpr ⟨p, hmem, hmatch⟩

/-- A directory-prefix pattern built from the path of an entry matches
that entry's relative path. -/
theorem matchesPattern_dir_self (rel : List Char) :
    matchesPattern rel (rel ++ ['/']) = true := by
  unfold matchesPattern
  rw [List.getLast?_concat]
  simp [List.dropLast_concat, List.isPrefixOf_iff_prefix]

/-- Claim C6 (confirmed): for a pattern ending in `/` and any genuine
relative path (nonempty components, none empty, none containing a slash),
`is_ignored` with that single pattern returns true exactly when the whole
relative path string starts with the pattern minus its trailing slash — a
plain string-prefix test, not a per-component test.  The glob branch can
never fire for such a pattern, because a match would force the relative
path to end in `/`. -/
theorem c6_dir_prefix_exact (comps : List (List Char)) (pattern : List Char)
    (hne : comps ≠ []) (hvalid : ∀ comp ∈ comps, comp ≠ [] ∧ '/' ∉ comp)
    (hslash : pattern.getLast? = some '/') :
    is_ignored (relString comps) [pattern] =
      pattern.dropLast.isPrefixOf (relString comps) := by
  unfold is_ignored
  simp only [List.any_cons, List.any_nil, Bool.or_false]
  unfold matchesPattern
  rw [hslash]
  simp only [beq_self_eq_true, Bool.true_and]
  cases hpre : pattern.dropLast.isPrefixOf (relString comps) with
  | true => simp
  | false =>
    simp only [Bool.false_or]
    cases hfm : fnmatchCore pattern (relString comps) with
    | false => rfl
    | true =>
      exfalso
      exact relString_not_lastSlash hne hvalid
        (fnmatchCore_lastSlash (pattern.length + (relString comps).length)
          pattern (relString comps) (le_refl _) hslash hfm)

/-- Claim C1 (counterexample): with the single ignore pattern `*.log`, the
nested path `build/output.log` IS ignored — the claim asserts `is_ignored`
returns false there, but Python's `fnmatch` translates `*` to regex `.*`,
which crosses path separators. -/
theorem c1_counterexample :
    is_ignored ("build/output.log".toList) [("*.log".toList)] = true := by
  simp [is_ignored, matchesPattern, fnmatchCore, splitBracket, scanClose,
    classMatch, matchSet]

/-- Claim C1 (corrected): for the ignore-pattern list holding the single glob `*.log` and
every relative path that ends with `.log` — `build/output.log` included —
`is_ignored` returns TRUE: the glob `*` of `fnmatch` crosses path
separators, so a bare `*.log` pattern does match nested files. -/
theorem c1_star_crosses_slash (pre : List Char) :
    is_ignored (pre ++ ".log".toList) [("*.log".toList)] = true := by
  have hsuffix : fnmatchCore (".log".toList) (".log".toList) = true := by
    simp [fnmatchCore]
  have habs := fnmatchCore_star_absorb (".log".toList) (".log".toList) hsuffix pre
  have hpat : "*.log".toList = '*' :: ".log".toList := rfl
  unfold is_ignored
  simp only [List.any_cons, List.any_nil, Bool.or_false]
  unfold matchesPattern
  rw [hpat, habs]
  simp

/-! ## Order facts for the sort key -/

/-- Python string comparison is irreflexive. -/
theorem pyStrLt_irrefl : ∀ s : List Char, pyStrLt s s = false := by
  intro s
  induction s with
  | nil => rfl
  | cons a s1 ih => simp [pyStrLt, ih]

/-- Python string comparison is transitive. -/
theorem pyStrLt_trans : ∀ a b c : List Char,
    pyStrLt a b = true → pyStrLt b c = true → pyStrLt a c = true := by
  intro a
  induction a with
  | nil =>
    intro b c h1 h2
    cases b with
    | nil => exact h2
    | cons y ys =>
      cases c with
      | nil => simp [pyStrLt] at h2
      | cons z zs => rfl
  | cons x xs ih =>
    intro b c h1 h2
    cases b with
    | nil => simp [pyStrLt] at h1
    | cons y ys =>
      cases c with
      | nil => simp [pyStrLt] at h2
      | cons z zs =>
        simp only [pyStrLt, Bool.or_eq_true, Bool.and_eq_true, decide_eq_true_eq,
          beq_iff_eq] at h1 h2 ⊢
        rcases h1 with h1 | ⟨h1e, h1r⟩
        · rcases h2 with h2 | ⟨h2e, h2r⟩
          · exact Or.inl (by omega)
          · subst h2e; exact Or.inl h1
        · subst h1e
          rcases h2 with h2 | ⟨h2e, h2r⟩
          · exact Or.inl h2
          · subst h2e; exact Or.inr ⟨rfl, ih ys zs h1r h2r⟩

/-- Python string comparison is asymmetric. -/
theorem pyStrLt_asymm {a b : List Char} (h : pyStrLt a b = true) :
    pyStrLt b a = false := by
  cases hba : pyStrLt b a with
  | false => rfl
  | true =>
    have h3 := pyStrLt_trans a b a h hba
    rw [pyStrLt_irrefl a] at h3
    exact h3.symm

/-- Two strings neither of which is below the other are equal. -/
theorem pyStrLt_connex : ∀ a b : List Char,
    pyStrLt a b = false → pyStrLt b a = false → a = b := by
  intro a
  induction a with
  | nil =>
    intro b h1 _
    cases b with
    | nil => rfl
    | cons y ys => simp [pyStrLt] at h1
  | cons x xs ih =>
    intro b h1 h2
    cases b with
    | nil => simp [pyStrLt] at h2
    | cons y ys =>
      simp only [pyStrLt, Bool.or_eq_false_iff, Bool.and_eq_false_iff,
        decide_eq_false_iff_not, Nat.not_lt, beq_eq_false_iff_ne, ne_eq] at h1 h2
      obtain ⟨h1n, h1r⟩ := h1
      obtain ⟨h2n, h2r⟩ := h2
      have hxy : x = y := by
        have := Char.le_antisymm (by exact h2n) (by exact h1n)
        exact this
      subst hxy
      rcases h1r with h1r | h1r
      · exact absurd rfl h1r
      · rcases h2r with h2r | h2r
        · exact absurd rfl h2r
        · rw [ih ys h1r h2r]

/-- Negative transitivity of Python string comparison. -/
theorem pyStrLt_negtrans {a b c : List Char} (h1 : pyStrLt b a = false)
    (h2 : pyStrLt c b = false) : pyStrLt c a = false := by
  cases hca : pyStrLt c a with
  | false => rfl
  | true =>
    cases hbc : pyStrLt b c with
    | true => rw [pyStrLt_trans b c a hbc hca] at h1; exact h1
    | false => rw [pyStrLt_connex c b h2 hbc] at hca; rw [hca] at h1; exact h1

/-- Negative transitivity of the tuple comparison on sort keys. -/
theorem keyLt_negtrans : ∀ p q r : Bool × List Char,
    keyLt q p = false → keyLt r q = false → keyLt r p = false := by
  rintro ⟨fp, np⟩ ⟨fq, nq⟩ ⟨fr, nr⟩ h1 h2
  unfold keyLt at h1 h2 ⊢
  cases fp <;> cases fq <;> cases fr <;> simp_all
  · exact pyStrLt_negtrans h1 h2
  · exact pyStrLt_negtrans h1 h2

/-- Asymmetry of the tuple comparison on sort keys. -/
theorem keyLt_asymm : ∀ p q : Bool × List Char,
    keyLt p q = true → keyLt q p = false := by
  rintro ⟨fp, np⟩ ⟨fq, nq⟩ h
  unfold keyLt at h ⊢
  cases fp <;> cases fq <;> simp_all
  · exact pyStrLt_asymm h
  · exact pyStrLt_asymm h

/-- Negative transitivity of the entry comparison. -/
theorem entryLt_negtrans {a b c : FSEntry} (h1 : entryLt b a = false)
    (h2 : entryLt c b = false) : entryLt c a = false :=
  keyLt_negtrans (entryKey a) (entryKey b) (entryKey c) h1 h2

/-- Asymmetry of the entry comparison. -/
theorem entryLt_asymm {a b : FSEntry} (h : entryLt a b = true) :
    entryLt b a = false :=
  keyLt_asymm (entryKey a) (entryKey b) h

/-! ## The sort is a permutation and sorts by the two-part key -/

/-- Stable insertion permutes the element onto the list. -/
theorem insertLe_perm (lt : α → α → Bool) (x : α) :
    ∀ l : List α, (insertLe lt x l).Perm (x :: l) := by
  intro l
  induction l with
  | nil => rfl
  | cons y ys ih =>
    rw [insertLe]
    by_cases h : lt y x = true
    · rw [if_pos h]
      exact (ih.cons y).trans (List.Perm.swap x y ys)
    · rw [if_neg h]

/-- Stable sorting permutes the list. -/
theorem stableSort_perm (lt : α → α → Bool) :
    ∀ l : List α, (stableSort lt l).Perm l := by
  intro l
  induction l with
  | nil => rfl
  | cons x xs ih =>
    rw [stableSort]
    exact (insertLe_perm lt x (stableSort lt xs)).trans (ih.cons x)

/-- Stable insertion into a key-sorted list keeps it key-sorted. -/
theorem insertLe_pairwise (x : FSEntry) :
    ∀ l : List FSEntry, l.Pairwise (fun a b => entryLt b a = false) →
      (insertLe entryLt x l).Pairwise (fun a b => entryLt b a = false) := by
  intro l
  induction l with
  | nil => intro _; simp [insertLe]
  | cons y ys ih =>
    intro hl
    rcases List.pairwise_cons.mp hl with ⟨hy, hys⟩
    rw [insertLe]
    by_cases h : entryLt y x = true
    · rw [if_pos h]
      refine List.pairwise_cons.mpr ⟨?_, ih hys⟩
      intro z hz
      have hz2 := (insertLe_perm entryLt x ys).mem_iff.mp hz
      rcases List.mem_cons.mp hz2 with rfl | hzys
      · exact entryLt_asymm h
      · exact hy z hzys
    · rw [if_neg h]
      have hyx : entryLt y x = false := by
        cases hv : entryLt y x with
        | false => rfl
        | true => exact absurd hv h
      refine List.pairwise_cons.mpr ⟨?_, hl⟩
      intro z hz
      rcases List.mem_cons.mp hz with rfl | hzys
      · exact hyx
      · exact entryLt_negtrans hyx (hy z hzys)

/-- Stable sorting produces a key-sorted list. -/
theorem stableSort_pairwise :
    ∀ l : List FSEntry,
      (stableSort entryLt l).Pairwise (fun a b => entryLt b a = false) := by
  intro l
  induction l with
  | nil => simp [stableSort]
  | cons x xs ih =>
    rw [stableSort]
    exact insertLe_pairwise x (stableSort entryLt xs) ih

/-- Claim C9 (confirmed): the entries the walker processes in a directory
are exactly the non-filtered ones (a permutation of the filter's output),
arranged in the two-key order — no entry is strictly below a later one
under `entryLt`, which compares the is-file flag first (directories
before files) and then the lowercased name by code point; concretely,
files `Banana` and `apple` sort as `apple`, `Banana`. -/
theorem c9_sorted_two_key (children : List FSEntry)
    (relComps patterns : List (List Char)) :
    (sortEntries children relComps patterns).Pairwise
        (fun a b => entryLt b a = false) ∧
    (sortEntries children relComps patterns).Perm
        (children.filter (keepEntry relComps patterns)) ∧
    stableSort entryLt
        [FSEntry.file ("Banana".toList) false [], FSEntry.file ("apple".toList) false []] =
      [FSEntry.file ("apple".toList) false [], FSEntry.file ("Banana".toList) false []] := by
  refine ⟨stableSort_pairwise _, stableSort_perm entryLt _, ?_⟩
  simp [stableSort, insertLe, entryLt, entryKey, keyLt, pyLower, lowerChar,
    pyStrLt, FSEntry.isFileFlag, FSEntry.name]

/-! ## One-step unfoldings of the walker -/

theorem walkList_nil (relComps patterns : List (List Char)) (pfx : List Char)
    (st : ScanState) : walkList [] relComps patterns pfx st = Except.ok ([], st) := by
  rw [walkList]

theorem walkList_file (n : List Char) (rFails : Bool) (content : List Nat)
    (rest : List FSEntry) (relComps patterns : List (List Char)) (pfx : List Char)
    (st : ScanState) :
    walkList (FSEntry.file n rFails content :: rest) relComps patterns pfx st =
      (match walkList rest relComps patterns pfx
          { st with file_count := st.file_count + 1,
                    line_count := st.line_count +
                      (if rFails then 0 else pyLineCount content) } with
       | Except.error u => Except.error u
       | Except.ok (tailLines, st2) =>
         Except.ok ((pfx ++ connector rest.isEmpty ++ n) :: tailLines, st2)) := by
  rw [walkList]

theorem walkList_symlink (n tgt : List Char) (rest : List FSEntry)
    (relComps patterns : List (List Char)) (pfx : List Char) (st : ScanState) :
    walkList (FSEntry.symlink n tgt :: rest) relComps patterns pfx st =
      (match walkList rest relComps patterns pfx
          { st with file_count := st.file_count + 1 } with
       | Except.error u => Except.error u
       | Except.ok (tailLines, st2) =>
         Except.ok ((pfx ++ connector rest.isEmpty ++ n) :: tailLines, st2)) := by
  rw [walkList]

theorem walkList_dir_perm (n : List Char) (ch rest : List FSEntry)
    (relComps patterns : List (List Char)) (pfx : List Char) (st : ScanState) :
    walkList (FSEntry.dir n ListOutcome.permErr ch :: rest) relComps patterns pfx st =
      (match walkList rest relComps patterns pfx
          { st with dir_count := st.dir_count + 1 } with
       | Except.error u => Except.error u
       | Except.ok (tailLines, st2) =>
         Except.ok ((pfx ++ connector rest.isEmpty ++ n) :: tailLines, st2)) := by
  rw [walkList]
  cases hrest : walkList rest relComps patterns pfx
      { st with dir_count := st.dir_count + 1 } with
  | error u => rfl
  | ok pr => obtain ⟨tl, st2⟩ := pr; simp

theorem walkList_dir_other (n : List Char) (ch rest : List FSEntry)
    (relComps patterns : List (List Char)) (pfx : List Char) (st : ScanState) :
    walkList (FSEntry.dir n ListOutcome.otherErr ch :: rest) relComps patterns pfx st =
      Except.error () := by
  rw [walkList]

theorem walkList_dir_ok (n : List Char) (ch rest : List FSEntry)
    (relComps patterns : List (List Char)) (pfx : List Char) (st : ScanState) :
    walkList (FSEntry.dir n ListOutcome.ok ch :: rest) relComps patterns pfx st =
      (match walkList (sortEntries ch (relComps ++ [n]) patterns) (relComps ++ [n])
          patterns (pfx ++ childPfx rest.isEmpty)
          { st with dir_count := st.dir_count + 1 } with
       | Except.error u => Except.error u
       | Except.ok (subLines, st2) =>
         match walkList rest relComps patterns pfx st2 with
         | Except.error u => Except.error u
         | Except.ok (tailLines, st3) =>
           Except.ok ((pfx ++ connector rest.isEmpty ++ n) :: (subLines ++ tailLines),
             st3)) := by
  rw [walkList]

/-! ## The counting invariant: one tree line per visited entry -/

/-- Each loop iteration of `build_tree` emits exactly one line and bumps
exactly one of `file_count`/`dir_count`, so over any successful walk the
two counters grow by the number of lines produced. -/
theorem walkList_count : ∀ (N : Nat) (entries : List FSEntry)
    (relComps patterns : List (List Char)) (pfx : List Char) (st : ScanState)
    (lines : List (List Char)) (st2 : ScanState),
    sizeOf entries ≤ N →
    walkList entries relComps patterns pfx st = Except.ok (lines, st2) →
    st2.file_count + st2.dir_count = st.file_count + st.dir_count + lines.length := by
  intro N
  induction N with
  | zero =>
    intro entries _ _ _ _ _ _ hsize _
    cases entries <;> simp at hsize
  | succ N ih =>
    intro entries relComps patterns pfx st lines st2 hsize hw
    match entries with
    | [] =>
      rw [walkList_nil] at hw
      simp only [Except.ok.injEq, Prod.mk.injEq] at hw
      obtain ⟨h1, h2⟩ := hw
      subst h1
      subst h2
      simp
    | FSEntry.file n rf ct :: rest =>
      rw [walkList_file] at hw
      cases hrest : walkList rest relComps patterns pfx
          { st with file_count := st.file_count + 1,
                    line_count := st.line_count + (if rf then 0 else pyLineCount ct) } with
      | error u => rw [hrest] at hw; simp at hw
      | ok pr =>
        obtain ⟨tl, st3⟩ := pr
        rw [hrest] at hw
        simp only [Except.ok.injEq, Prod.mk.injEq] at hw
        obtain ⟨h1, h2⟩ := hw
        subst h1
        subst h2
        have hrec := ih rest relComps patterns pfx _ tl st3 (by simp at hsize ⊢; omega) hrest
        simp at hrec ⊢
        omega
    | FSEntry.symlink n tg :: rest =>
      rw [walkList_symlink] at hw
      cases hrest : walkList rest relComps patterns pfx
          { st with file_count := st.file_count + 1 } with
      | error u => rw [hrest] at hw; simp at hw
      | ok pr =>
        obtain ⟨tl, st3⟩ := pr
        rw [hrest] at hw
        simp only [Except.ok.injEq, Prod.mk.injEq] at hw
        obtain ⟨h1, h2⟩ := hw
        subst h1
        subst h2
        have hrec := ih rest relComps patterns pfx _ tl st3 (by simp at hsize ⊢; omega) hrest
        simp at hrec ⊢
        omega
    | FSEntry.dir n listing ch :: rest =>
      cases listing with
      | permErr =>
        rw [walkList_dir_perm] at hw
        cases hrest : walkList rest relComps patterns pfx
            { st with dir_count := st.dir_count + 1 } with
        | error u => rw [hrest] at hw; simp at hw
        | ok pr =>
          obtain ⟨tl, st3⟩ := pr
          rw [hrest] at hw
          simp only [Except.ok.injEq, Prod.mk.injEq] at hw
          obtain ⟨h1, h2⟩ := hw
          subst h1
          subst h2
          have hrec := ih rest relComps patterns pfx _ tl st3 (by simp at hsize ⊢; omega) hrest
          simp at hrec ⊢
          omega
      | otherErr =>
        rw [walkList_dir_other] at hw
        simp at hw
      | ok =>
        rw [walkList_dir_ok] at hw
        cases hsub : walkList (sortEntries ch (relComps ++ [n]) patterns)
            (relComps ++ [n]) patterns (pfx ++ childPfx rest.isEmpty)
            { st with dir_count := st.dir_count + 1 } with
        | error u => rw [hsub] at hw; simp at hw
        | ok prs =>
          obtain ⟨sub, stm⟩ := prs
          rw [hsub] at hw
          dsimp only at hw
          cases hrest : walkList rest relComps patterns pfx stm with
          | error u => rw [hrest] at hw; simp at hw
          | ok prr =>
            obtain ⟨tl, st3⟩ := prr
            rw [hrest] at hw
            simp only [Except.ok.injEq, Prod.mk.injEq] at hw
            obtain ⟨h1, h2⟩ := hw
            subst h1
            subst h2
            have hchsize : sizeOf (sortEntries ch (relComps ++ [n]) patterns) ≤ N := by
              have hle := sortEntries_sizeOf_le ch (relComps ++ [n]) patterns
              simp at hsize
              omega
            have hrec1 := ih (sortEntries ch (relComps ++ [n]) patterns)
              (relComps ++ [n]) patterns (pfx ++ childPfx rest.isEmpty) _ sub stm
              hchsize hsub
            have hrec2 := ih rest relComps patterns pfx stm tl st3
              (by simp at hsize ⊢; omega) hrest
            simp at hrec1 hrec2 ⊢
            omega

/-! ## Tree measures and predicates -/

mutual
/-- Number of non-symlink nodes in the subtree rooted at an entry,
counting the entry itself (a symlink counts zero and hides its subtree,
which the program never reads). -/
def entryTotal : FSEntry → Nat
  | FSEntry.file _ _ _ => 1
  | FSEntry.symlink _ _ => 0
  | FSEntry.dir _ _ children => 1 + listTotal children

/-- Total of `entryTotal` over a sibling list. -/
def listTotal : List FSEntry → Nat
  | [] => 0
  | e :: rest => entryTotal e + listTotal rest
end

mutual
/-- Every directory listing in the subtree (the entry included) succeeds. -/
def entryErrorFree : FSEntry → Bool
  | FSEntry.file _ _ _ => true
  | FSEntry.symlink _ _ => true
  | FSEntry.dir _ ListOutcome.ok children => listErrorFree children
  | FSEntry.dir _ _ _ => false

/-- `entryErrorFree` over a sibling list. -/
def listErrorFree : List FSEntry → Bool
  | [] => true
  | e :: rest => entryErrorFree e && listErrorFree rest
end

mutual
/-- No entry of the subtree is matched by the ignore patterns, with
`relComps` the component path of the containing directory. -/
def entryNotIgnored (relComps patterns : List (List Char)) : FSEntry → Bool
  | FSEntry.file n _ _ => !is_ignored (relString (relComps ++ [n])) patterns
  | FSEntry.symlink _ _ => true
  | FSEntry.dir n _ children =>
    !is_ignored (relString (relComps ++ [n])) patterns &&
      listNotIgnored (relComps ++ [n]) patterns children
/-- `entryNotIgnored` over a sibling list. -/
def listNotIgnored (relComps patterns : List (List Char)) : List FSEntry → Bool
  | [] => true
  | e :: rest => entryNotIgnored relComps patterns e && listNotIgnored relComps patterns rest
end

mutual
/-- The same tree with every symlink entry removed, at every depth. -/
def stripEntry : FSEntry → FSEntry
  | FSEntry.file n f c => FSEntry.file n f c
  | FSEntry.symlink n t => FSEntry.symlink n t
  | FSEntry.dir n o children => FSEntry.dir n o (stripList children)
/-- Drop the symlinks of a sibling list and strip the remaining entries. -/
def stripList : List FSEntry → List FSEntry
  | [] => []
  | e :: rest => if e.isSymlink then stripList rest else stripEntry e :: stripList rest
end

/-! ## Facts about the measures -/

/-- `listTotal` as a sum over the list. -/
theorem listTotal_eq_sum : ∀ l : List FSEntry, listTotal l = (l.map entryTotal).sum := by
  intro l
  induction l with
  | nil => rfl
  | cons e rest ih => rw [listTotal, ih]; simp

/-- Permutations preserve `listTotal`. -/
theorem listTotal_perm {l1 l2 : List FSEntry} (h : l1.Perm l2) :
    listTotal l1 = listTotal l2 := by
  rw [listTotal_eq_sum, listTotal_eq_sum]
  exact (h.map entryTotal).sum_eq

/-- Dropping symlinks preserves `listTotal` (they count zero). -/
theorem listTotal_filter_symlink : ∀ l : List FSEntry,
    listTotal (l.filter (fun e => !e.isSymlink)) = listTotal l := by
  intro l
  induction l with
  | nil => rfl
  | cons e rest ih =>
    rw [List.filter_cons]
    cases e with
    | file n f c => rw [if_pos (by rfl), listTotal, listTotal, ih]
    | dir n o ch => rw [if_pos (by rfl), listTotal, listTotal, ih]
    | symlink n t =>
      rw [if_neg (by simp [FSEntry.isSymlink]), ih, listTotal, entryTotal]
      omega

/-- Elementwise reading of `listErrorFree`. -/
theorem listErrorFree_iff : ∀ l : List FSEntry,
    listErrorFree l = true ↔ ∀ e ∈ l, entryErrorFree e = true := by
  intro l
  induction l with
  | nil => simp [listErrorFree]
  | cons e rest ih =>
    rw [listErrorFree]
    simp [ih]

/-- Elementwise reading of `listNotIgnored`. -/
theorem listNotIgnored_iff : ∀ (relComps patterns : List (List Char)) (l : List FSEntry),
    listNotIgnored relComps patterns l = true ↔
      ∀ e ∈ l, entryNotIgnored relComps patterns e = true := by
  intro relComps patterns l
  induction l with
  | nil => simp [listNotIgnored]
  | cons e rest ih =>
    rw [listNotIgnored]
    simp [ih]

/-- Members of the filtered, sorted sibling list come from the raw
listing and pass the filter. -/
theorem mem_sortEntries {e : FSEntry} {children : List FSEntry}
    {relComps patterns : List (List Char)}
    (h : e ∈ sortEntries children relComps patterns) :
    e ∈ children ∧ keepEntry relComps patterns e = true := by
  have h2 := (stableSort_perm entryLt (children.filter (keepEntry relComps patterns))).mem_iff.mp h
  exact ⟨(List.mem_filter.mp h2).1, (List.mem_filter.mp h2).2⟩

/-- When no entry of a sibling list is ignored, the walker's filter keeps
exactly the non-symlinks. -/
theorem filter_keep_of_notIgnored {children : List FSEntry}
    {relComps patterns : List (List Char)}
    (h : listNotIgnored relComps patterns children = true) :
    children.filter (keepEntry relComps patterns) =
      children.filter (fun e => !e.isSymlink) := by
  apply List.filter_congr
  intro e he
  have he2 := (listNotIgnored_iff relComps patterns children).mp h e he
  cases e with
  | file n f c =>
    rw [entryNotIgnored] at he2
    simp [keepEntry, FSEntry.isSymlink, FSEntry.name, he2]
  | symlink n t => simp [keepEntry, FSEntry.isSymlink]
  | dir n o ch =>
    rw [entryNotIgnored] at he2
    simp only [Bool.and_eq_true] at he2
    simp [keepEntry, FSEntry.isSymlink, FSEntry.name, he2.1]

/-- The filtered, sorted sibling list of an unignored, listable directory
carries the same total as the raw listing. -/
theorem listTotal_sortEntries {children : List FSEntry}
    {relComps patterns : List (List Char)}
    (h : listNotIgnored relComps patterns children = true) :
    listTotal (sortEntries children relComps patterns) = listTotal children := by
  unfold sortEntries
  rw [listTotal_perm (stableSort_perm entryLt _), filter_keep_of_notIgnored h,
    listTotal_filter_symlink]

/-- Entries of the filtered, sorted sibling list are never symlinks. -/
theorem sortEntries_no_symlink {e : FSEntry} {children : List FSEntry}
    {relComps patterns : List (List Char)}
    (h : e ∈ sortEntries children relComps patterns) : e.isSymlink = false := by
  have hk := (mem_sortEntries h).2
  unfold keepEntry at hk
  simp only [Bool.and_eq_true, Bool.not_eq_eq_eq_not, Bool.not_true] at hk
  exact hk.1

/-- Over a sibling list free of symlinks, listing errors and ignored
entries, the walk succeeds and emits one line per entry of the subtree. -/
theorem walkList_total : ∀ (N : Nat) (l : List FSEntry)
    (relComps patterns : List (List Char)) (pfx : List Char) (st : ScanState),
    sizeOf l ≤ N →
    (∀ e ∈ l, e.isSymlink = false) →
    (∀ e ∈ l, entryErrorFree e = true) →
    (∀ e ∈ l, entryNotIgnored relComps patterns e = true) →
    ∃ lines st2, walkList l relComps patterns pfx st = Except.ok (lines, st2) ∧
      lines.length = listTotal l := by
  intro N
  induction N with
  | zero =>
    intro l _ _ _ _ hsize
    cases l <;> simp at hsize
  | succ N ih =>
    intro l relComps patterns pfx st hsize hsym herr hign
    match l with
    | [] => exact ⟨[], st, walkList_nil relComps patterns pfx st, rfl⟩
    | FSEntry.file n rf ct :: rest =>
      obtain ⟨tl, st3, hw, hlen⟩ := ih rest relComps patterns pfx
        { st with file_count := st.file_count + 1,
                  line_count := st.line_count + (if rf then 0 else pyLineCount ct) }
        (by simp at hsize ⊢; omega)
        (fun e he => hsym e (by simp [he]))
        (fun e he => herr e (by simp [he]))
        (fun e he => hign e (by simp [he]))
      refine ⟨(pfx ++ connector rest.isEmpty ++ n) :: tl, st3, ?_, ?_⟩
      · rw [walkList_file, hw]
      · rw [listTotal, entryTotal]
        simp [hlen]
        omega
    | FSEntry.symlink n tg :: rest =>
      exact absurd (hsym (FSEntry.symlink n tg) (by simp)) (by simp [FSEntry.isSymlink])
    | FSEntry.dir n listing ch :: rest =>
      have herrd := herr (FSEntry.dir n listing ch) (by simp)
      cases listing with
      | permErr => simp [entryErrorFree] at herrd
      | otherErr => simp [entryErrorFree] at herrd
      | ok =>
        rw [entryErrorFree] at herrd
        have hignd := hign (FSEntry.dir n ListOutcome.ok ch) (by simp)
        rw [entryNotIgnored] at hignd
        simp only [Bool.and_eq_true] at hignd
        have hsub : ∀ e ∈ sortEntries ch (relComps ++ [n]) patterns,
            e.isSymlink = false := fun e he => sortEntries_no_symlink he
        have herrsub : ∀ e ∈ sortEntries ch (relComps ++ [n]) patterns,
            entryErrorFree e = true := fun e he =>
          (listErrorFree_iff ch).mp herrd e (mem_sortEntries he).1
        have hignsub : ∀ e ∈ sortEntries ch (relComps ++ [n]) patterns,
            entryNotIgnored (relComps ++ [n]) patterns e = true := fun e he =>
          (listNotIgnored_iff (relComps ++ [n]) patterns ch).mp hignd.2 e
            (mem_sortEntries he).1
        obtain ⟨sub, stm, hwsub, hlensub⟩ := ih
          (sortEntries ch (relComps ++ [n]) patterns) (relComps ++ [n]) patterns
          (pfx ++ childPfx rest.isEmpty) { st with dir_count := st.dir_count + 1 }
          (by have := sortEntries_sizeOf_le ch (relComps ++ [n]) patterns
              simp at hsize ⊢; omega)
          hsub herrsub hignsub
        obtain ⟨tl, st3, hwrest, hlenrest⟩ := ih rest relComps patterns pfx stm
          (by simp at hsize ⊢; omega)
          (fun e he => hsym e (by simp [he]))
          (fun e he => herr e (by simp [he]))
          (fun e he => hign e (by simp [he]))
        refine ⟨(pfx ++ connector rest.isEmpty ++ n) :: (sub ++ tl), st3, ?_, ?_⟩
        · rw [walkList_dir_ok, hwsub]
          dsimp only
          rw [hwrest]
        · rw [listTotal, entryTotal, ← listTotal_sortEntries hignd.2]
          simp [hlensub, hlenrest]
          omega

/-! ## Claim C4 -/

/-- Claim C4 (corrected): after a complete walk, `file_count + dir_count`
equals the number of tree lines emitted — one line per visited entry,
i.e. per listed entry that is neither a symlink nor ignored, the root
excluded.  For a scan in which no entry is ignored AND every directory
listing succeeds, the sum equals the total number of non-symlink entries
of the tree; the claim as frozen omitted the listing-success condition,
which the counterexample shows to be necessary. -/
theorem c4_counts_invariant :
    (∀ (root : FSEntry) (patterns : List (List Char)) (lines : List (List Char))
        (st : ScanState),
        runScan root patterns = Except.ok (lines, st) →
        st.file_count + st.dir_count = lines.length) ∧
    (∀ (rn : List Char) (ch : List FSEntry) (patterns : List (List Char))
        (lines : List (List Char)) (st : ScanState),
        listErrorFree ch = true →
        listNotIgnored [] patterns ch = true →
        runScan (FSEntry.dir rn ListOutcome.ok ch) patterns = Except.ok (lines, st) →
        st.file_count + st.dir_count = listTotal ch) := by
  constructor
  · intro root patterns lines st h
    unfold runScan build_tree at h
    cases root with
    | file n f c => simp at h
    | symlink n t => simp at h
    | dir n listing ch =>
      cases listing with
      | permErr =>
        simp only [Except.ok.injEq, Prod.mk.injEq] at h
        obtain ⟨h1, h2⟩ := h
        subst h1
        subst h2
        rfl
      | otherErr => simp at h
      | ok =>
        have hc := walkList_count (sizeOf (sortEntries ch [] patterns))
          (sortEntries ch [] patterns) [] patterns [] ⟨0, 0, 0⟩ lines st
          (le_refl _) h
        simpa using hc
  · intro rn ch patterns lines st herr hign hrun
    unfold runScan build_tree at hrun
    dsimp only at hrun
    have hcnt := walkList_count (sizeOf (sortEntries ch [] patterns))
      (sortEntries ch [] patterns) [] patterns [] ⟨0, 0, 0⟩ lines st
      (le_refl _) hrun
    obtain ⟨lines2, st2, hw2, hlen2⟩ := walkList_total
      (sizeOf (sortEntries ch [] patterns)) (sortEntries ch [] patterns)
      [] patterns [] ⟨0, 0, 0⟩ (le_refl _)
      (fun e he => sortEntries_no_symlink he)
      (fun e he => (listErrorFree_iff ch).mp herr e (mem_sortEntries he).1)
      (fun e he => (listNotIgnored_iff [] patterns ch).mp hign e (mem_sortEntries he).1)
    rw [hrun] at hw2
    simp only [Except.ok.injEq, Prod.mk.injEq] at hw2
    obtain ⟨hl2, _⟩ := hw2
    subst hl2
    rw [← listTotal_sortEntries hign, ← hlen2]
    simpa using hcnt

/-- Claim C4 (counterexample): with no ignore patterns, a tree holding one
permission-denied directory that itself holds one file gives
`file_count + dir_count = 1`, while the tree has `2` non-symlink entries —
so without a listing-success condition the claimed equality fails. -/
theorem c4_counterexample :
    runScan (FSEntry.dir ['r'] ListOutcome.ok
        [FSEntry.dir ['d'] ListOutcome.permErr [FSEntry.file ['f'] false []]]) [] =
      Except.ok ([['└', '─', '─', ' ', 'd']], ⟨0, 1, 0⟩) ∧
    listTotal [FSEntry.dir ['d'] ListOutcome.permErr [FSEntry.file ['f'] false []]] = 2 ∧
    (0 + 1 : Nat) ≠ 2 := by
  refine ⟨?_, rfl, by decide⟩
  unfold runScan build_tree
  dsimp only
  rw [show sortEntries [FSEntry.dir ['d'] ListOutcome.permErr [FSEntry.file ['f'] false []]]
        [] [] = [FSEntry.dir ['d'] ListOutcome.permErr [FSEntry.file ['f'] false []]] from rfl]
  rw [walkList_dir_perm, walkList_nil]
  rfl

/-! ## Claims C2, C8, C3, C5 -/

/-- Claim C2 (corrected): a file whose `open`/read raises (the walker's
`except Exception`) still bumps `file_count` by one, adds nothing to
`line_count`, and the loop continues with the next sibling (first
conjunct).  But since the file is opened with the ignore error handler, a file
whose bytes are not valid UTF-8 does NOT raise: it is decoded lossily and
contributes the line count of the decoded text, not zero (second
conjunct; the counterexample exhibits a binary file contributing two
lines). -/
theorem c2_read_failure_counts (n : List Char) (content : List Nat)
    (rest : List FSEntry) (relComps patterns : List (List Char)) (pfx : List Char)
    (st : ScanState) :
    walkList (FSEntry.file n true content :: rest) relComps patterns pfx st =
      (match walkList rest relComps patterns pfx
          { st with file_count := st.file_count + 1 } with
       | Except.error u => Except.error u
       | Except.ok (tailLines, st2) =>
         Except.ok ((pfx ++ connector rest.isEmpty ++ n) :: tailLines, st2)) ∧
    walkList (FSEntry.file n false content :: rest) relComps patterns pfx st =
      (match walkList rest relComps patterns pfx
          { st with file_count := st.file_count + 1,
                    line_count := st.line_count + pyLineCount content } with
       | Except.error u => Except.error u
       | Except.ok (tailLines, st2) =>
         Except.ok ((pfx ++ connector rest.isEmpty ++ n) :: tailLines, st2)) := by
  constructor
  · rw [walkList_file]
    simp
  · rw [walkList_file]
    simp

/-- Claim C2 (counterexample): the file `b` holds the bytes
`FF 0A 41`, which strict UTF-8 cannot decode; the scan still counts it in
`file_count` but adds `2` — not `0` — to `line_count`, because
the ignore error handler decodes the content lossily to a two-line text. -/
theorem c2_counterexample :
    runScan (FSEntry.dir ['r'] ListOutcome.ok
        [FSEntry.file ['b'] false [255, 10, 65]]) [] =
      Except.ok ([['└', '─', '─', ' ', 'b']], ⟨1, 0, 2⟩) ∧ (2 : Nat) ≠ 0 := by
  refine ⟨?_, by decide⟩
  unfold runScan build_tree
  dsimp only
  rw [show sortEntries [FSEntry.file ['b'] false [255, 10, 65]] [] [] =
        [FSEntry.file ['b'] false [255, 10, 65]] from rfl]
  rw [walkList_file, walkList_nil]
  rfl

/-- Claim C8 (confirmed): a directory whose listing raises
`PermissionError` yields an empty line sequence and leaves every counter
untouched beyond the `dir_count` increment its caller already recorded,
and the caller's loop continues with the remaining siblings. -/
theorem c8_perm_denied_recovered (n : List Char) (ch rest : List FSEntry)
    (relComps patterns : List (List Char)) (pfx : List Char) (st : ScanState) :
    build_tree (FSEntry.dir n ListOutcome.permErr ch) relComps patterns pfx st =
        Except.ok ([], st) ∧
    walkList (FSEntry.dir n ListOutcome.permErr ch :: rest) relComps patterns pfx st =
      (match walkList rest relComps patterns pfx
          { st with dir_count := st.dir_count + 1 } with
       | Except.error u => Except.error u
       | Except.ok (tailLines, st2) =>
         Except.ok ((pfx ++ connector rest.isEmpty ++ n) :: tailLines, st2)) :=
  ⟨rfl, walkList_dir_perm n ch rest relComps patterns pfx st⟩

/-- Claim C3 (confirmed): for a fixed tree and a fixed pattern list, any
two scans — each starting from zeroed counters as `runScan` does — return
the same tree-line sequence and the same final counters.  The embedding
is a pure function of the tree and the patterns, so determinism is by
construction. -/
theorem c3_deterministic_scan (root : FSEntry) (patterns : List (List Char))
    (r1 r2 : Except Unit (List (List Char) × ScanState))
    (h1 : r1 = runScan root patterns) (h2 : r2 = runScan root patterns) :
    r1 = r2 := by
  rw [h1, h2]

/-- Witness for claim C3 at a concrete one-file tree. -/
theorem c3_witness :
    runScan (FSEntry.dir ['r'] ListOutcome.ok [FSEntry.file ['f'] false [10]]) [] =
      runScan (FSEntry.dir ['r'] ListOutcome.ok [FSEntry.file ['f'] false [10]]) [] :=
  c3_deterministic_scan (FSEntry.dir ['r'] ListOutcome.ok [FSEntry.file ['f'] false [10]])
    [] _ _ rfl rfl

/-- Claim C5 (confirmed): when the pattern list holds the
directory-prefix pattern for a directory entry (its root-relative path
followed by `/`), the walk of the containing sibling list is identical to
the walk without that directory: no tree line is emitted for it or for
anything beneath it, and no entry of its subtree (which the statement
quantifies over) touches any counter. -/
theorem c5_dir_prefix_excludes (l1 l2 sub : List FSEntry) (d : List Char)
    (listing : ListOutcome) (relComps patterns : List (List Char))
    (pfx : List Char) (st : ScanState)
    (hpat : relString (relComps ++ [d]) ++ ['/'] ∈ patterns) :
    walkList (sortEntries (l1 ++ FSEntry.dir d listing sub :: l2) relComps patterns)
        relComps patterns pfx st =
      walkList (sortEntries (l1 ++ l2) relComps patterns) relComps patterns pfx st := by
  have hkeep : keepEntry relComps patterns (FSEntry.dir d listing sub) = false := by
    unfold keepEntry
    have hig : is_ignored (relString (relComps ++ [(FSEntry.dir d listing sub).name]))
        patterns = true := is_ignored_of_mem hpat (matchesPattern_dir_self _)
    rw [hig]
    simp
  unfold sortEntries
  rw [List.filter_append, List.filter_append, List.filter_cons, hkeep]
  simp

/-- Witness for claim C5: the pattern `b/` removes the directory `b`. -/
theorem c5_witness :
    walkList (sortEntries ([] ++ FSEntry.dir ['b'] ListOutcome.ok [] :: [])
        [] [['b', '/']]) [] [['b', '/']] [] ⟨0, 0, 0⟩ =
      walkList (sortEntries ([] ++ []) [] [['b', '/']]) [] [['b', '/']] [] ⟨0, 0, 0⟩ :=
  c5_dir_prefix_excludes [] [] [] ['b'] ListOutcome.ok [] [['b', '/']] [] ⟨0, 0, 0⟩
    (by simp [relString])

/-- Witness for claim C6 at the path `sub` and pattern `sub/`. -/
theorem c6_witness :
    is_ignored (relString [['s', 'u', 'b']]) [['s', 'u', 'b', '/']] =
      (['s', 'u', 'b', '/'].dropLast.isPrefixOf (relString [['s', 'u', 'b']])) :=
  c6_dir_prefix_exact [['s', 'u', 'b']] ['s', 'u', 'b', '/'] (by simp)
    (by simp) (by decide)

/-- Witness for claim C4: a clean one-file scan gives counts 1 = total 1. -/
theorem c4_witness :
    (ScanState.mk 1 0 0).file_count + (ScanState.mk 1 0 0).dir_count =
      listTotal [FSEntry.file ['f'] false []] :=
  c4_counts_invariant.2 ['r'] [FSEntry.file ['f'] false []] []
    [['└', '─', '─', ' ', 'f']] (ScanState.mk 1 0 0) rfl rfl
    (by unfold runScan build_tree
        dsimp only
        rw [show sortEntries [FSEntry.file ['f'] false []] [] [] =
              [FSEntry.file ['f'] false []] from rfl]
        rw [walkList_file, walkList_nil]
        rfl)

/-! ## Claim C7: symlinks are invisible to the walk -/

/-- Stripping preserves the walker's filter verdict. -/
theorem keepEntry_strip (relComps patterns : List (List Char)) :
    ∀ e : FSEntry, keepEntry relComps patterns (stripEntry e) =
      keepEntry relComps patterns e := by
  intro e
  cases e <;> rfl

/-- Stripping preserves the sort key. -/
theorem entryKey_strip : ∀ e : FSEntry, entryKey (stripEntry e) = entryKey e := by
  intro e
  cases e <;> rfl

/-- Stripping preserves the entry comparison. -/
theorem entryLt_strip (a b : FSEntry) :
    entryLt (stripEntry a) (stripEntry b) = entryLt a b := by
  unfold entryLt
  rw [entryKey_strip, entryKey_strip]

/-- Stable insertion commutes with stripping. -/
theorem insertLe_map_strip (x : FSEntry) : ∀ l : List FSEntry,
    insertLe entryLt (stripEntry x) (l.map stripEntry) =
      (insertLe entryLt x l).map stripEntry := by
  intro l
  induction l with
  | nil => rfl
  | cons y ys ih =>
    rw [List.map_cons, insertLe, insertLe, entryLt_strip]
    by_cases h : entryLt y x = true
    · rw [if_pos h, if_pos h, List.map_cons, ih]
    · rw [if_neg h, if_neg h]
      rfl

/-- Stable sorting commutes with stripping. -/
theorem stableSort_map_strip : ∀ l : List FSEntry,
    stableSort entryLt (l.map stripEntry) = (stableSort entryLt l).map stripEntry := by
  intro l
  induction l with
  | nil => rfl
  | cons x xs ih =>
    rw [List.map_cons, stableSort, stableSort, ih, insertLe_map_strip]

/-- The walker's filter on a stripped sibling list yields the stripped
image of the filter on the original list. -/
theorem filter_stripList (relComps patterns : List (List Char)) :
    ∀ l : List FSEntry,
    (stripList l).filter (keepEntry relComps patterns) =
      (l.filter (keepEntry relComps patterns)).map stripEntry := by
  intro l
  induction l with
  | nil => rfl
  | cons e rest ih =>
    rw [stripList]
    by_cases hsym : e.isSymlink = true
    · rw [if_pos hsym, ih, List.filter_cons]
      have hk : keepEntry relComps patterns e = false := by
        unfold keepEntry
        rw [hsym]
        rfl
      rw [if_neg (by simp [hk])]
    · rw [if_neg hsym, List.filter_cons, List.filter_cons, keepEntry_strip]
      by_cases hk : keepEntry relComps patterns e = true
      · rw [if_pos hk, if_pos hk, List.map_cons, ih]
      · rw [if_neg hk, if_neg hk, ih]

/-- The filtered, sorted sibling list of a stripped listing is the
stripped image of the original one. -/
theorem sortEntries_strip (ch : List FSEntry) (relComps patterns : List (List Char)) :
    sortEntries (stripList ch) relComps patterns =
      (sortEntries ch relComps patterns).map stripEntry := by
  unfold sortEntries
  rw [filter_stripList, stableSort_map_strip]

/-- Stripping a sibling list elementwise preserves emptiness. -/
theorem map_strip_isEmpty (rest : List FSEntry) :
    (rest.map stripEntry).isEmpty = rest.isEmpty := by
  cases rest <;> rfl

/-- Walking a stripped sibling list produces exactly the walk of the
original list: the dropped symlinks never contributed lines or counts, and
the surviving entries are unchanged apart from their own stripped
subtrees. -/
theorem walkList_map_strip : ∀ (N : Nat) (l : List FSEntry)
    (relComps patterns : List (List Char)) (pfx : List Char) (st : ScanState),
    sizeOf l ≤ N →
    walkList (l.map stripEntry) relComps patterns pfx st =
      walkList l relComps patterns pfx st := by
  intro N
  induction N with
  | zero =>
    intro l _ _ _ _ hsize
    cases l <;> simp at hsize
  | succ N ih =>
    intro l relComps patterns pfx st hsize
    match l with
    | [] => rfl
    | FSEntry.file n rf ct :: rest =>
      simp only [List.map_cons, stripEntry]
      rw [walkList_file, walkList_file, map_strip_isEmpty,
        ih rest relComps patterns pfx _ (by simp at hsize ⊢; omega)]
    | FSEntry.symlink n tg :: rest =>
      simp only [List.map_cons, stripEntry]
      rw [walkList_symlink, walkList_symlink, map_strip_isEmpty,
        ih rest relComps patterns pfx _ (by simp at hsize ⊢; omega)]
    | FSEntry.dir n listing ch :: rest =>
      simp only [List.map_cons, stripEntry]
      cases listing with
      | permErr =>
        rw [walkList_dir_perm, walkList_dir_perm, map_strip_isEmpty,
          ih rest relComps patterns pfx _ (by simp at hsize ⊢; omega)]
      | otherErr => rw [walkList_dir_other, walkList_dir_other]
      | ok =>
        rw [walkList_dir_ok, walkList_dir_ok, map_strip_isEmpty, sortEntries_strip]
        rw [ih (sortEntries ch (relComps ++ [n]) patterns) (relComps ++ [n]) patterns
          (pfx ++ childPfx rest.isEmpty) { st with dir_count := st.dir_count + 1 }
          (by have := sortEntries_sizeOf_le ch (relComps ++ [n]) patterns
              simp at hsize ⊢; omega)]
        cases hsub : walkList (sortEntries ch (relComps ++ [n]) patterns)
            (relComps ++ [n]) patterns (pfx ++ childPfx rest.isEmpty)
            { st with dir_count := st.dir_count + 1 } with
        | error u => rfl
        | ok pr =>
          obtain ⟨sub, stm⟩ := pr
          dsimp only
          rw [ih rest relComps patterns pfx stm (by simp at hsize ⊢; omega)]

/-- Claim C7 (confirmed): removing every symlink from the tree — whatever
each symlink's target, self- or ancestor-referential included, since the
walker never reads the target — leaves the scan's lines and counters
unchanged: a symlink is never recursed into, never counted, and never
emits a tree line. -/
theorem c7_symlinks_inert (root : FSEntry) (patterns : List (List Char)) :
    runScan (stripEntry root) patterns = runScan root patterns := by
  cases root with
  | file n f c => rfl
  | symlink n t => rfl
  | dir n listing ch =>
    cases listing with
    | permErr => rfl
    | otherErr => rfl
    | ok =>
      unfold runScan build_tree
      dsimp only [stripEntry]
      rw [sortEntries_strip]
      exact walkList_map_strip (sizeOf (sortEntries ch [] patterns)) _ [] patterns []
        ⟨0, 0, 0⟩ (le_refl _)

/-! ## Claim C10: only PermissionError is recovered -/

/-- A sibling list holding a directory whose listing raises a
non-permission exception makes the whole walk raise. -/
theorem walkList_mem_other : ∀ (N : Nat) (l : List FSEntry)
    (relComps patterns : List (List Char)) (pfx : List Char) (st : ScanState)
    (n : List Char) (sub : List FSEntry),
    sizeOf l ≤ N →
    FSEntry.dir n ListOutcome.otherErr sub ∈ l →
    walkList l relComps patterns pfx st = Except.error () := by
  intro N
  induction N with
  | zero =>
    intro l _ _ _ _ _ _ hsize
    cases l <;> simp at hsize
  | succ N ih =>
    intro l relComps patterns pfx st n sub hsize hmem
    match l with
    | [] => simp at hmem
    | e :: rest =>
      rcases List.mem_cons.mp hmem with heq | hmem2
      · rw [← heq, walkList_dir_other]
      · cases e with
        | file n2 rf ct =>
          rw [walkList_file,
            ih rest relComps patterns pfx _ n sub (by simp at hsize ⊢; omega) hmem2]
        | symlink n2 tg =>
          rw [walkList_symlink,
            ih rest relComps patterns pfx _ n sub (by simp at hsize ⊢; omega) hmem2]
        | dir n2 listing2 ch2 =>
          cases listing2 with
          | permErr =>
            rw [walkList_dir_perm,
              ih rest relComps patterns pfx _ n sub (by simp at hsize ⊢; omega) hmem2]
          | otherErr => rw [walkList_dir_other]
          | ok =>
            rw [walkList_dir_ok]
            cases hsub : walkList (sortEntries ch2 (relComps ++ [n2]) patterns)
                (relComps ++ [n2]) patterns (pfx ++ childPfx rest.isEmpty)
                { st with dir_count := st.dir_count + 1 } with
            | error u => rfl
            | ok pr =>
              obtain ⟨s2, stm⟩ := pr
              dsimp only
              rw [ih rest relComps patterns pfx stm n sub
                (by simp at hsize ⊢; omega) hmem2]

/-- Claim C10 (confirmed): only `PermissionError` is caught around a
directory listing.  Any other listing exception is modelled as
`ListOutcome.otherErr`: `build_tree` on such a directory raises
(first conjunct), and when the walk reaches such a directory anywhere in
the root's kept entries the exception propagates out of the whole scan,
so `main` writes no report at all (second conjunct). -/
theorem c10_other_error_aborts :
    (∀ (n : List Char) (ch : List FSEntry) (relComps patterns : List (List Char))
        (pfx : List Char) (st : ScanState),
        build_tree (FSEntry.dir n ListOutcome.otherErr ch) relComps patterns pfx st =
          Except.error ()) ∧
    (∀ (rn n : List Char) (ch sub : List FSEntry) (patterns : List (List Char)),
        FSEntry.dir n ListOutcome.otherErr sub ∈ ch →
        is_ignored (relString [n]) patterns = false →
        mainReport (FSEntry.dir rn ListOutcome.ok ch) patterns = none) := by
  constructor
  · intro n ch relComps patterns pfx st
    rfl
  · intro rn n ch sub patterns hmem hnig
    have hkeep : keepEntry [] patterns (FSEntry.dir n ListOutcome.otherErr sub) = true := by
      unfold keepEntry
      simp [FSEntry.isSymlink, FSEntry.name, hnig]
    have hmems : FSEntry.dir n ListOutcome.otherErr sub ∈ sortEntries ch [] patterns := by
      unfold sortEntries
      exact (stableSort_perm entryLt _).mem_iff.mpr (List.mem_filter.mpr ⟨hmem, hkeep⟩)
    have herr := walkList_mem_other (sizeOf (sortEntries ch [] patterns))
      (sortEntries ch [] patterns) [] patterns [] ⟨0, 0, 0⟩ n sub (le_refl _) hmems
    unfold mainReport runScan build_tree
    dsimp only
    rw [herr]

/-- Witness for claim C10: one unreadable (non-permission) directory kills
the report. -/
theorem c10_witness :
    mainReport (FSEntry.dir ['r'] ListOutcome.ok
        [FSEntry.dir ['d'] ListOutcome.otherErr []]) [] = none :=
  c10_other_error_aborts.2 ['r'] ['d'] [FSEntry.dir ['d'] ListOutcome.otherErr []] [] []
    (List.mem_cons_self _ _) rfl

end TreeScan
